import Mathlib

/-!
Verification of the "Neural Background" particle/packet animation engine
(`NeuralBackground` React component, two variants in the repository).

Numbers are modelled as rationals.  `Math.sqrt` (and `Math.hypot`, which the
source uses as `sqrt` of a sum of two squares) is modelled as an explicit
oracle parameter `s : ℚ → ℚ`; theorems assume of `s` only the properties of
the real square root that they need (non-negativity, strict monotonicity on
non-negative inputs, threshold comparisons), all of which are satisfiable by
computable rational functions, so every statement can be instantiated and
evaluated on concrete inputs.

Randomness (`Math.random()`) is modelled by explicit rational parameters or
streams, with the hypothesis that each drawn value lies in `[0, 1)`.
-/

/-- One animated point of the background field: position `(x, y)`,
velocity `(vx, vy)` (units per frame) and radius `size`.
Mirrors the particle objects pushed in `NeuralBackground`. -/
structure Particle where
  x : ℚ
  y : ℚ
  vx : ℚ
  vy : ℚ
  size : ℚ
deriving DecidableEq, Repr

/-- One in-flight data packet: indices of its two endpoint particles and its
traversal state.  Mirrors the packet objects pushed in variant 1. -/
structure Packet where
  p1 : ℕ
  p2 : ℕ
  progress : ℚ
  speed : ℚ
deriving DecidableEq, Repr

/-- Squared Euclidean distance between two particles; the source always feeds
this value (as `dx*dx + dy*dy`) to `Math.sqrt` / `Math.hypot`. -/
def distSq (p q : Particle) : ℚ :=
  (p.x - q.x) * (p.x - q.x) + (p.y - q.y) * (p.y - q.y)

/-- Squared distance from the pointer `(mx, my)` to a point `(px, py)`,
as computed by `dx = mouse.x - p.x; dy = mouse.y - p.y; dx*dx + dy*dy`. -/
def mouseDSq (mx my px py : ℚ) : ℚ :=
  (mx - px) * (mx - px) + (my - py) * (my - py)

/-- One per-frame update of a single particle, translated from the body of the
`particles.forEach` loop in `animate`:
position += velocity; reflective bounce test on each axis (`x < 0 || x > width`
flips `vx`, likewise for `y`); then, if the pointer distance is below the
interaction radius `mD`, displace the particle by
`dx * force * coef` on each axis, with `force = (mD - dist)/mD`.
`coef = -3/100` is variant 1 (repel, `p.x -= dx*force*0.03`);
`coef = 2/100` is variant 2 (attract, `p.x += dx*force*0.02`). -/
def advanceParticle (s : ℚ → ℚ) (mx my w h mD coef : ℚ) (p : Particle) : Particle :=
  let x1 := p.x + p.vx
  let y1 := p.y + p.vy
  let vx1 := if x1 < 0 ∨ w < x1 then -p.vx else p.vx
  let vy1 := if y1 < 0 ∨ h < y1 then -p.vy else p.vy
  let dx := mx - x1
  let dy := my - y1
  let dist := s (dx * dx + dy * dy)
  if dist < mD then
    let force := (mD - dist) / mD
    ⟨x1 + dx * force * coef, y1 + dy * force * coef, vx1, vy1, p.size⟩
  else
    ⟨x1, y1, vx1, vy1, p.size⟩

/-- One per-frame update of the whole particle field (the mutating
`particles.forEach` pass, state part only). -/
def advanceAll (s : ℚ → ℚ) (mx my w h mD coef : ℚ) (ps : List Particle) : List Particle :=
  ps.map (advanceParticle s mx my w h mD coef)

/-- Iterated particle-field update: `k` ticks, the pointer position at tick
`t` given by the stream `mseq t` (pointer-move events may retarget the pointer
between any two ticks). -/
def iterAdvance (s : ℚ → ℚ) (mseq : ℕ → ℚ × ℚ) (w h mD coef : ℚ) :
    ℕ → List Particle → List Particle
  | 0, ps => ps
  | k + 1, ps =>
      advanceAll s (mseq k).1 (mseq k).2 w h mD coef (iterAdvance s mseq w h mD coef k ps)

/-- Inductive invariant for one coordinate of the move-and-bounce step:
the coordinate overshoots the surface `[0, w]` by at most one velocity step,
and while outside, the velocity points back toward the surface. -/
def coordInv (w x v : ℚ) : Prop :=
  -|v| ≤ x ∧ x ≤ w + |v| ∧ (x < 0 → 0 ≤ v) ∧ (w < x → v ≤ 0)

lemma coordInv_step (w x v : ℚ) (hw : 0 ≤ w) (h : coordInv w x v) :
    coordInv w (x + v) (if x + v < 0 ∨ w < x + v then -v else v) := by
  obtain ⟨h1, h2, h3, h4⟩ := h
  have hlow : -|v| ≤ x + v := by
    rcases lt_or_le x 0 with hx | hx
    · have hv := h3 hx
      have : (0:ℚ) ≤ v := hv
      nlinarith [abs_nonneg v]
    · have := neg_abs_le v
      linarith
  have hhigh : x + v ≤ w + |v| := by
    rcases le_or_lt x w with hx | hx
    · have := le_abs_self v
      linarith
    · have hv := h4 hx
      linarith
  by_cases hc : x + v < 0 ∨ w < x + v
  · rw [if_pos hc]
    refine ⟨by rwa [abs_neg], by rwa [abs_neg], ?_, ?_⟩
    · intro hneg
      have hx0 : 0 ≤ x := by
        by_contra hx
        push_neg at hx
        have hv := h3 hx
        have : -|v| = -v := by rw [abs_of_nonneg hv]
        linarith [h1, this]
      have : v < 0 := by linarith
      linarith
    · intro hpos
      have hxw : x ≤ w := by
        by_contra hx
        push_neg at hx
        have hv := h4 hx
        have : |v| = -v := abs_of_nonpos hv
        linarith [h2, this]
      have : 0 < v := by linarith
      linarith
  · rw [if_neg hc]
    push_neg at hc
    exact ⟨hlow, hhigh, fun hneg => absurd hneg (not_lt.mpr hc.1), fun hpos => absurd hpos (not_lt.mpr hc.2)⟩

/-- With an inactive pointer (computed pointer distance not below the
interaction radius), the particle update is exactly move-and-bounce. -/
lemma advanceParticle_far (s : ℚ → ℚ) (mx my w h mD coef : ℚ) (p : Particle)
    (hfar : ¬ s (mouseDSq mx my (p.x + p.vx) (p.y + p.vy)) < mD) :
    advanceParticle s mx my w h mD coef p =
      ⟨p.x + p.vx, p.y + p.vy,
        if p.x + p.vx < 0 ∨ w < p.x + p.vx then -p.vx else p.vx,
        if p.y + p.vy < 0 ∨ h < p.y + p.vy then -p.vy else p.vy, p.size⟩ := by
  unfold advanceParticle
  simp only [mouseDSq] at hfar
  rw [if_neg hfar]

/-- Per-particle inductive invariant for the amended boundary-containment
property: both coordinates satisfy `coordInv` and per-axis speeds are at
most 1 (the source initialises them below 0.25 in both variants). -/
def particleInv (w h : ℚ) (p : Particle) : Prop :=
  coordInv w p.x p.vx ∧ coordInv h p.y p.vy ∧ |p.vx| ≤ 1 ∧ |p.vy| ≤ 1

lemma mouseDSq_sentinel_far (s : ℚ → ℚ) (mD x1 y1 : ℚ)
    (hs : ∀ a : ℚ, mD * mD ≤ a → ¬ s a < mD)
    (hmD0 : 0 ≤ mD) (hmD9 : mD ≤ 900) (hx1 : -2 ≤ x1) :
    ¬ s (mouseDSq (-1000) (-1000) x1 y1) < mD := by
  apply hs
  unfold mouseDSq
  have ha : (0 : ℚ) ≤ (x1 + 2) * (x1 + 1998) :=
    mul_nonneg (by linarith) (by linarith)
  have hb : (0 : ℚ) ≤ (-1000 - y1) * (-1000 - y1) := mul_self_nonneg _
  have hc : mD * mD ≤ 810000 := by nlinarith
  nlinarith [ha, hb, hc]

lemma particleInv_step (s : ℚ → ℚ) (w h mD coef : ℚ)
    (hs : ∀ a : ℚ, mD * mD ≤ a → ¬ s a < mD)
    (hmD0 : 0 ≤ mD) (hmD9 : mD ≤ 900) (hw : 0 ≤ w) (hh : 0 ≤ h) (p : Particle)
    (hp : particleInv w h p) :
    particleInv w h (advanceParticle s (-1000) (-1000) w h mD coef p) := by
  obtain ⟨hix, hiy, hvx, hvy⟩ := hp
  have hx1 : (-2 : ℚ) ≤ p.x + p.vx := by
    have h1 := hix.1
    have := neg_abs_le p.vx
    linarith
  have hfar := mouseDSq_sentinel_far s mD (p.x + p.vx) (p.y + p.vy) hs hmD0 hmD9 hx1
  rw [advanceParticle_far s (-1000) (-1000) w h mD coef p hfar]
  refine ⟨coordInv_step w p.x p.vx hw hix, coordInv_step h p.y p.vy hh hiy, ?_, ?_⟩
  · dsimp only
    split_ifs <;> simpa [abs_neg]
  · dsimp only
    split_ifs <;> simpa [abs_neg]

/-- C2 (amended): boundary containment holds when the pointer is inactive.
With the pointer parked at the sentinel position `(-1000, -1000)` (the
source's initial "far away" value, outside every interaction radius up to
900), starting from any state satisfying the reflection invariant with
per-axis speeds at most 1, after any number of ticks every particle's
coordinates remain within `[-ε, extent + ε]` where `ε` is that particle's
per-axis speed — one reflection step of overshoot.  (With an active pointer
the claim is false: see the counterexample.) -/
theorem c2_containment_amended (s : ℚ → ℚ) (w h mD coef : ℚ)
    (hs : ∀ a : ℚ, mD * mD ≤ a → ¬ s a < mD)
    (hmD0 : 0 ≤ mD) (hmD9 : mD ≤ 900) (hw : 0 ≤ w) (hh : 0 ≤ h)
    (ps : List Particle) (hps : ∀ p ∈ ps, particleInv w h p) (k : ℕ) :
    ∀ p ∈ iterAdvance s (fun _ => ((-1000 : ℚ), (-1000 : ℚ))) w h mD coef k ps,
      -|p.vx| ≤ p.x ∧ p.x ≤ w + |p.vx| ∧ -|p.vy| ≤ p.y ∧ p.y ≤ h + |p.vy| := by
  have main : ∀ p ∈ iterAdvance s (fun _ => ((-1000 : ℚ), (-1000 : ℚ))) w h mD coef k ps,
      particleInv w h p := by
    induction k with
    | zero => simpa [iterAdvance] using hps
    | succ n ih =>
        intro p hp
        simp only [iterAdvance, advanceAll, List.mem_map] at hp
        obtain ⟨q, hq, rfl⟩ := hp
        exact particleInv_step s w h mD coef hs hmD0 hmD9 hw hh q (ih q hq)
  intro p hp
  obtain ⟨hx, hy, _, _⟩ := main p hp
  exact ⟨hx.1, hx.2.1, hy.1, hy.2.1⟩

/-- Witness for `c2_containment_amended`: a single particle at `(5, 5)` with
velocity `(1/10, -1/10)` in a `100 × 100` surface, `s` the identity,
interaction radius 250, run for 3 ticks; the particle ends at
`(53/10, 47/10)`, inside the tolerance band. -/
theorem c2_containment_amended_witness :
    -|(⟨53/10, 47/10, 1/10, -1/10, 2⟩ : Particle).vx|
        ≤ (⟨53/10, 47/10, 1/10, -1/10, 2⟩ : Particle).x ∧
      (⟨53/10, 47/10, 1/10, -1/10, 2⟩ : Particle).x
        ≤ 100 + |(⟨53/10, 47/10, 1/10, -1/10, 2⟩ : Particle).vx| ∧
      -|(⟨53/10, 47/10, 1/10, -1/10, 2⟩ : Particle).vy|
        ≤ (⟨53/10, 47/10, 1/10, -1/10, 2⟩ : Particle).y ∧
      (⟨53/10, 47/10, 1/10, -1/10, 2⟩ : Particle).y
        ≤ 100 + |(⟨53/10, 47/10, 1/10, -1/10, 2⟩ : Particle).vy| :=
  c2_containment_amended id 100 100 250 (-3/100)
    (fun a ha => by simp only [id_eq] at ha ⊢; intro hlt; nlinarith)
    (by norm_num) (by norm_num) (by norm_num) (by norm_num)
    [⟨5, 5, 1/10, -1/10, 2⟩]
    (by
      intro p hp
      simp only [List.mem_singleton] at hp
      subst hp
      have h1 : |(1 : ℚ)/10| = 1/10 := abs_of_nonneg (by norm_num)
      have h2 : |(-1 : ℚ)/10| = 1/10 := by
        rw [show (-1 : ℚ)/10 = -(1/10) by ring, abs_neg, h1]
      constructor
      · exact ⟨by rw [h1]; norm_num, by rw [h1]; norm_num,
          by intro hc; norm_num at hc, by intro hc; norm_num at hc⟩
      refine ⟨⟨?_, ?_, ?_, ?_⟩, ?_, ?_⟩
      · rw [show |(⟨5, 5, 1/10, -1/10, 2⟩ : Particle).vy| = 1/10 from h2]; norm_num
      · rw [show |(⟨5, 5, 1/10, -1/10, 2⟩ : Particle).vy| = 1/10 from h2]; norm_num
      · intro hc; norm_num at hc
      · intro hc; norm_num at hc
      · rw [show |(⟨5, 5, 1/10, -1/10, 2⟩ : Particle).vx| = 1/10 from h1]; norm_num
      · rw [show |(⟨5, 5, 1/10, -1/10, 2⟩ : Particle).vy| = 1/10 from h2]; norm_num)
    3 ⟨53/10, 47/10, 1/10, -1/10, 2⟩
    (by
      have : iterAdvance id (fun _ => ((-1000 : ℚ), (-1000 : ℚ))) 100 100 250 (-3/100) 3
          [⟨5, 5, 1/10, -1/10, 2⟩] = [⟨53/10, 47/10, 1/10, -1/10, 2⟩] := by
        norm_num [iterAdvance, advanceAll, advanceParticle]
      rw [this]
      exact List.mem_singleton_self _)

/-- C2 as stated in the claim: for arbitrary pointer positions (any pointer
stream), any surface and either interaction variant, coordinates of every
particle starting inside the surface stay within `[-ε, extent + ε]`, with
the generous tolerance `ε = |v| + mD·0.03` (one reflection step plus the
largest possible single-tick pointer displacement).  The code refutes this:
the pointer branch runs after the bounce test and can push a particle
arbitrarily far outside, a little more each tick. -/
def c2ClaimStatement : Prop :=
  ∀ (s : ℚ → ℚ), (∀ a : ℚ, 0 ≤ a → 0 ≤ s a) →
    (∀ a b : ℚ, 0 ≤ a → a < b → s a < s b) →
    ∀ (w h mD coef : ℚ) (mseq : ℕ → ℚ × ℚ) (ps : List Particle),
      0 ≤ w → 0 ≤ h → 0 < mD → (coef = -3/100 ∨ coef = 2/100) →
      (∀ p ∈ ps, 0 ≤ p.x ∧ p.x ≤ w ∧ 0 ≤ p.y ∧ p.y ≤ h) →
      ∀ k : ℕ, ∀ p ∈ iterAdvance s mseq w h mD coef k ps,
        -(|p.vx| + mD * (3/100)) ≤ p.x ∧ p.x ≤ w + (|p.vx| + mD * (3/100)) ∧
        -(|p.vy| + mD * (3/100)) ≤ p.y ∧ p.y ≤ h + (|p.vy| + mD * (3/100))

lemma c2_cex_step (xn : ℚ) :
    advanceParticle (fun a => a / 125) (xn + 125) 5 100 100 250 (-3/100)
        ⟨xn, 5, 0, 0, 1⟩ =
      ⟨xn - 15/8, 5, 0, 0, 1⟩ := by
  simp only [advanceParticle, neg_zero, ite_self]
  have hdx : xn + 125 - (xn + 0) = (125 : ℚ) := by ring
  have hdy : (5 : ℚ) - (5 + 0) = 0 := by ring
  simp only [hdx, hdy]
  norm_num [Particle.mk.injEq]
  ring

lemma c2_cex_iter (k : ℕ) :
    iterAdvance (fun a => a / 125) (fun n => ((126 : ℚ) - (15/8) * n, 5)) 100 100 250 (-3/100) k
        [⟨1, 5, 0, 0, 1⟩] =
      [⟨1 - (15/8) * k, 5, 0, 0, 1⟩] := by
  induction k with
  | zero => norm_num [iterAdvance]
  | succ n ih =>
      rw [iterAdvance, ih]
      unfold advanceAll
      simp only [List.map_cons, List.map_nil]
      have hm : (126 : ℚ) - (15/8) * n = (1 - (15/8) * n) + 125 := by ring
      rw [hm, c2_cex_step]
      have : (1 : ℚ) - 15/8 * n - 15/8 = 1 - 15/8 * (n + 1 : ℕ) := by push_cast; ring
      rw [this]

/-- Counterexample to C2 as stated: with the repel variant, a pointer stream
that tracks the particle from 125 units away pushes it 1.875 units further
outside the surface every tick; after 10 ticks the particle sits at
`x = -17.75`, far beyond the tolerance `ε = 0 + 250·0.03 = 7.5`. -/
theorem c2_containment_counterexample : ¬ c2ClaimStatement := by
  intro hcl
  have h := hcl (fun a => a / 125)
    (fun a ha => by positivity)
    (fun a b _ hab => by dsimp only; linarith)
    100 100 250 (-3/100) (fun n => ((126 : ℚ) - (15/8) * n, 5)) [⟨1, 5, 0, 0, 1⟩]
    (by norm_num) (by norm_num) (by norm_num) (Or.inl rfl)
    (by intro p hp; simp only [List.mem_singleton] at hp; subst hp; norm_num)
    10 ⟨1 - (15/8) * (10 : ℕ), 5, 0, 0, 1⟩
    (by rw [c2_cex_iter]; exact List.mem_singleton_self _)
  obtain ⟨hlow, _⟩ := h
  norm_num at hlow

/-- C3: a boundary crossing reflects the velocity component exactly once.
If the pointer is inactive (computed pointer distance not below the
interaction radius on both ticks) and a particle inside `[0, w]` crosses a
horizontal boundary this tick (`x + vx < 0` or `x + vx > w`), then this tick
flips `vx` exactly once (to `-vx`), and the next tick performs no further
flip for this crossing: the particle is carried back exactly to its
pre-crossing abscissa, inside `[0, w]`, with `vx` unchanged. -/
theorem c3_reflection_flips_once (s : ℚ → ℚ) (mx my w h mD coef : ℚ) (p : Particle)
    (hx0 : 0 ≤ p.x) (hxw : p.x ≤ w)
    (hcross : p.x + p.vx < 0 ∨ w < p.x + p.vx)
    (hfar1 : ¬ s (mouseDSq mx my (p.x + p.vx) (p.y + p.vy)) < mD)
    (hfar2 : ¬ s (mouseDSq mx my
        ((advanceParticle s mx my w h mD coef p).x + (advanceParticle s mx my w h mD coef p).vx)
        ((advanceParticle s mx my w h mD coef p).y + (advanceParticle s mx my w h mD coef p).vy))
        < mD) :
    (advanceParticle s mx my w h mD coef p).vx = -p.vx ∧
    (advanceParticle s mx my w h mD coef (advanceParticle s mx my w h mD coef p)).x = p.x ∧
    (advanceParticle s mx my w h mD coef (advanceParticle s mx my w h mD coef p)).vx
      = (advanceParticle s mx my w h mD coef p).vx := by
  have h1 : advanceParticle s mx my w h mD coef p =
      ⟨p.x + p.vx, p.y + p.vy,
        -p.vx,
        if p.y + p.vy < 0 ∨ h < p.y + p.vy then -p.vy else p.vy, p.size⟩ := by
    unfold advanceParticle
    simp only [mouseDSq] at hfar1
    rw [if_neg]
    · simp only [if_pos hcross]
    · exact hfar1
  refine ⟨by rw [h1], ?_, ?_⟩
  · rw [h1] at hfar2 ⊢
    unfold advanceParticle
    simp only [mouseDSq] at hfar2
    rw [if_neg]
    · ring
    · simpa [advanceParticle, mouseDSq] using hfar2
  · rw [h1] at hfar2 ⊢
    unfold advanceParticle
    simp only [mouseDSq] at hfar2
    rw [if_neg]
    · have hx2 : ¬ (p.x + p.vx + -p.vx < 0 ∨ w < p.x + p.vx + -p.vx) := by
        push_neg
        constructor <;> [linarith; linarith]
      simp only [if_neg hx2]
    · simpa [advanceParticle, mouseDSq] using hfar2

/-- Default particle used by `List.getD` when stating index-based facts. -/
def pDefault : Particle := ⟨0, 0, 0, 0, 0⟩

/-- Inner loop of the packet-spawn nearest-neighbor scan, translated from
`for (let j = 0; j < particleCount; j++) { if (p1 === j) continue;
const d = Math.hypot(...); if (d < minDist) { closest = j; minDist = d; } }`.
`j` is the running index, `cl` the current `closest` (`none` encodes `-1`)
and `md` the current `minDist`. -/
def nnGo (s : ℚ → ℚ) (pi : Particle) (i : ℕ) :
    List Particle → ℕ → Option ℕ → ℚ → Option ℕ
  | [], _, cl, _ => cl
  | pj :: rest, j, cl, md =>
      if i = j then nnGo s pi i rest (j + 1) cl md
      else if s (distSq pi pj) < md then
        nnGo s pi i rest (j + 1) (some j) (s (distSq pi pj))
      else nnGo s pi i rest (j + 1) cl md

/-- The nearest-neighbor query of the packet spawner: scan all indices in
ascending order, starting from `closest = -1` and `minDist` equal to the
connection threshold `T`. -/
def nnScan (s : ℚ → ℚ) (parts : List Particle) (i : ℕ) (pi : Particle) (T : ℚ) :
    Option ℕ :=
  nnGo s pi i parts 0 none T

lemma nnGo_spec (s : ℚ → ℚ) (pi : Particle) (i : ℕ) (l : List Particle) :
    ∀ (n : ℕ) (cl : Option ℕ) (md : ℚ),
      (nnGo s pi i l n cl md = cl ∧
        ∀ k, k < l.length → n + k ≠ i → ¬ s (distSq pi (l.getD k pDefault)) < md)
      ∨ (∃ k, k < l.length ∧ n + k ≠ i ∧ nnGo s pi i l n cl md = some (n + k) ∧
          s (distSq pi (l.getD k pDefault)) < md ∧
          (∀ m, m < l.length → n + m ≠ i →
            ¬ s (distSq pi (l.getD m pDefault)) < s (distSq pi (l.getD k pDefault))) ∧
          (∀ m, m < k → n + m ≠ i →
            s (distSq pi (l.getD k pDefault)) < s (distSq pi (l.getD m pDefault)))) := by
  induction l with
  | nil =>
      intro n cl md
      left
      exact ⟨rfl, fun k hk _ => absurd hk (by simp)⟩
  | cons pj rest ih =>
      intro n cl md
      by_cases hij : i = n
      · rcases ih (n + 1) cl md with ⟨he, hall⟩ | ⟨k, hk, hki, he, hd, hmin, htie⟩
        · left
          refine ⟨by simpa [nnGo, if_pos hij] using he, ?_⟩
          intro k hk hki
          match k with
          | 0 => exact absurd hij.symm (by simpa using hki)
          | m + 1 =>
              simpa using hall m (by simpa using hk) (by omega)
        · right
          refine ⟨k + 1, by simpa using hk, by omega, ?_, by simpa using hd, ?_, ?_⟩
          · have : n + (k + 1) = (n + 1) + k := by omega
            rw [this]
            simpa [nnGo, if_pos hij] using he
          · intro m hm hmi
            match m with
            | 0 => exact absurd hij.symm (by simpa using hmi)
            | q + 1 =>
                simpa using hmin q (by simpa using hm) (by omega)
          · intro m hm hmi
            match m with
            | 0 => exact absurd hij.symm (by simpa using hmi)
            | q + 1 =>
                simpa using htie q (by omega) (by omega)
      · by_cases hlt : s (distSq pi pj) < md
        · rcases ih (n + 1) (some n) (s (distSq pi pj)) with ⟨he, hall⟩ |
            ⟨k, hk, hki, he, hd, hmin, htie⟩
          · right
            refine ⟨0, by simp, by omega, ?_, by simpa using hlt, ?_, ?_⟩
            · have : n + 0 = n := by omega
              rw [this]
              simpa [nnGo, if_neg hij, if_pos hlt] using he
            · intro m hm hmi
              match m with
              | 0 => simp
              | q + 1 =>
                  simpa using hall q (by simpa using hm) (by omega)
            · intro m hm _
              exact absurd hm (by omega)
          · right
            have hdlt : s (distSq pi (rest.getD k pDefault)) < md := lt_trans hd hlt
            refine ⟨k + 1, by simpa using hk, by omega, ?_, by simpa using hdlt, ?_, ?_⟩
            · have : n + (k + 1) = (n + 1) + k := by omega
              rw [this]
              simpa [nnGo, if_neg hij, if_pos hlt] using he
            · intro m hm hmi
              match m with
              | 0 => simpa using (lt_asymm hd)
              | q + 1 =>
                  simpa using hmin q (by simpa using hm) (by omega)
            · intro m hm hmi
              match m with
              | 0 => simpa using hd
              | q + 1 =>
                  simpa using htie q (by omega) (by omega)
        · rcases ih (n + 1) cl md with ⟨he, hall⟩ | ⟨k, hk, hki, he, hd, hmin, htie⟩
          · left
            refine ⟨by simpa [nnGo, if_neg hij, if_neg hlt] using he, ?_⟩
            intro k hk hki
            match k with
            | 0 => simpa using hlt
            | m + 1 =>
                simpa using hall m (by simpa using hk) (by omega)
          · right
            have hmd : md ≤ s (distSq pi pj) := not_lt.mp hlt
            have hd0 : s (distSq pi (rest.getD k pDefault)) < s (distSq pi pj) :=
              lt_of_lt_of_le hd hmd
            refine ⟨k + 1, by simpa using hk, by omega, ?_, by simpa using hd, ?_, ?_⟩
            · have : n + (k + 1) = (n + 1) + k := by omega
              rw [this]
              simpa [nnGo, if_neg hij, if_neg hlt] using he
            · intro m hm hmi
              match m with
              | 0 => simpa using (lt_asymm hd0)
              | q + 1 =>
                  simpa using hmin q (by simpa using hm) (by omega)
            · intro m hm hmi
              match m with
              | 0 => simpa using hd0
              | q + 1 =>
                  simpa using htie q (by omega) (by omega)

/-- C4: correctness of the spawn-time nearest-neighbor scan.  The scan
returns `none` exactly when no other index has (code-computed) distance
strictly below the threshold `T`; and when it returns `some j`, then `j` is a
valid index distinct from `i`, its distance is strictly below `T`, no other
index has a strictly smaller distance, and every smaller index (other than
`i`) has a strictly larger distance — i.e. ties are broken by lowest index. -/
theorem c4_nearest_neighbor_correct (s : ℚ → ℚ) (parts : List Particle) (i : ℕ)
    (pi : Particle) (T : ℚ) :
    (nnScan s parts i pi T = none ↔
      ∀ k, k < parts.length → k ≠ i → ¬ s (distSq pi (parts.getD k pDefault)) < T)
    ∧ (∀ j, nnScan s parts i pi T = some j →
        j < parts.length ∧ j ≠ i ∧ s (distSq pi (parts.getD j pDefault)) < T ∧
        (∀ k, k < parts.length → k ≠ i →
          ¬ s (distSq pi (parts.getD k pDefault)) < s (distSq pi (parts.getD j pDefault))) ∧
        (∀ k, k < j → k ≠ i →
          s (distSq pi (parts.getD j pDefault)) < s (distSq pi (parts.getD k pDefault)))) := by
  rcases nnGo_spec s pi i parts 0 none T with ⟨he, hall⟩ | ⟨k, hk, hki, he, hd, hmin, htie⟩
  · constructor
    · constructor
      · intro _ k hk hki
        exact hall k hk (by omega)
      · intro _
        exact he
    · intro j hj
      rw [nnScan] at hj
      rw [he] at hj
      exact absurd hj (by simp)
  · have hsc : nnScan s parts i pi T = some k := by simpa [nnScan] using he
    constructor
    · constructor
      · intro hn
        rw [hsc] at hn
        exact absurd hn (by simp)
      · intro hno
        exact absurd hd (hno k hk (by omega))
    · intro j hj
      rw [hsc] at hj
      have hjk : j = k := by
        have := Option.some.inj hj
        omega
      subst hjk
      refine ⟨hk, by omega, hd, ?_, ?_⟩
      · intro m hm hmi
        exact hmin m hm (by omega)
      · intro m hm hmi
        exact htie m hm (by omega)

/-- Witness for `c3_reflection_flips_once`: particle at `x = 1/2` with
`vx = -1`, pointer at the sentinel `(-1000, -1000)`, `s` instantiated as the
identity (which satisfies the far-pointer hypotheses at these inputs). -/
theorem c3_reflection_flips_once_witness :
    (advanceParticle id (-1000) (-1000) 100 100 250 (-3/100) ⟨1/2, 50, -1, 0, 1⟩).vx
        = -(⟨1/2, 50, -1, 0, 1⟩ : Particle).vx ∧
    (advanceParticle id (-1000) (-1000) 100 100 250 (-3/100)
      (advanceParticle id (-1000) (-1000) 100 100 250 (-3/100) ⟨1/2, 50, -1, 0, 1⟩)).x
        = (⟨1/2, 50, -1, 0, 1⟩ : Particle).x ∧
    (advanceParticle id (-1000) (-1000) 100 100 250 (-3/100)
      (advanceParticle id (-1000) (-1000) 100 100 250 (-3/100) ⟨1/2, 50, -1, 0, 1⟩)).vx
        = (advanceParticle id (-1000) (-1000) 100 100 250 (-3/100) ⟨1/2, 50, -1, 0, 1⟩).vx :=
  c3_reflection_flips_once id (-1000) (-1000) 100 100 250 (-3/100) ⟨1/2, 50, -1, 0, 1⟩
    (by norm_num) (by norm_num) (by left; norm_num)
    (by norm_num [mouseDSq]) (by norm_num [advanceParticle, mouseDSq])

/-- Per-tick advancement of one packet: `pkt.progress += pkt.speed`. -/
def advPkt (q : Packet) : Packet :=
  ⟨q.p1, q.p2, q.progress + q.speed, q.speed⟩

/-- The fate of a single packet in one sweep pass: advance its progress,
remove it (`none`) on arrival (`progress >= 1`) or when the live distance of
its two endpoint particles exceeds the threshold, keep the advanced packet
otherwise.  Endpoint lookups use `Option` indexing; an out-of-range index
also yields `none` here (the sweep proper treats that as an error). -/
def packetKeep (s : ℚ → ℚ) (parts : List Particle) (T : ℚ) (q : Packet) :
    Option Packet :=
  if 1 ≤ (advPkt q).progress then none
  else
    match parts.get? q.p1, parts.get? q.p2 with
    | some a, some b => if T < s (distSq a b) then none else some (advPkt q)
    | _, _ => none

/-- The packet update/prune loop, translated from
`for (let i = packets.length - 1; i >= 0; i--) { ... splice ... }`.
The source's end-to-start traversal with `splice` visits each element exactly
once and removals are independent per element, so it is modelled by structural
recursion producing the compacted list in original order.  An out-of-range
endpoint index (which in the source would read a property of `undefined` and
throw) is modelled as the error result `none` for the whole sweep. -/
def sweepO (s : ℚ → ℚ) (parts : List Particle) (T : ℚ) :
    List Packet → Option (List Packet)
  | [] => some []
  | q :: rest =>
      if 1 ≤ (advPkt q).progress then sweepO s parts T rest
      else
        match parts.get? q.p1, parts.get? q.p2 with
        | some a, some b =>
            if T < s (distSq a b) then sweepO s parts T rest
            else (sweepO s parts T rest).map (fun out => advPkt q :: out)
        | _, _ => none

/-- C5: post-state of a completed packet sweep.  When the sweep completes
without an indexing error, the surviving collection is exactly the original
list with every element advanced once and the arrived / edge-invalidated
packets removed (no element is skipped during compaction); every survivor has
`progress < 1`, a live pair distance not exceeding the threshold, and is the
once-advanced image of an element of the input. -/
theorem c5_sweep_postcondition (s : ℚ → ℚ) (parts : List Particle) (T : ℚ)
    (packets out : List Packet) (hsw : sweepO s parts T packets = some out) :
    out = packets.filterMap (packetKeep s parts T) ∧
    (∀ q ∈ out, q.progress < 1) ∧
    (∀ q ∈ out, ∃ a b, parts.get? q.p1 = some a ∧ parts.get? q.p2 = some b ∧
      s (distSq a b) ≤ T) ∧
    (∀ q ∈ out, ∃ p ∈ packets, q = advPkt p) := by
  induction packets generalizing out with
  | nil =>
      rw [sweepO] at hsw
      obtain rfl := Option.some.inj hsw
      exact ⟨rfl, by simp, by simp, by simp⟩
  | cons q rest ih =>
      rw [sweepO] at hsw
      by_cases h1 : (1 : ℚ) ≤ (advPkt q).progress
      · rw [if_pos h1] at hsw
        obtain ⟨hfm, hp1, hp2, hp3⟩ := ih out hsw
        refine ⟨?_, hp1, hp2, ?_⟩
        · rw [List.filterMap_cons_none, hfm]
          rw [packetKeep, if_pos h1]
        · intro x hx
          obtain ⟨p, hp, hpe⟩ := hp3 x hx
          exact ⟨p, List.mem_cons_of_mem q hp, hpe⟩
      · rw [if_neg h1] at hsw
        rcases hga : parts.get? q.p1 with _ | a
        · rw [hga] at hsw
          exact absurd hsw (by simp)
        rcases hgb : parts.get? q.p2 with _ | b
        · rw [hga, hgb] at hsw
          exact absurd hsw (by simp)
        simp only [hga, hgb] at hsw
        by_cases hd : T < s (distSq a b)
        · rw [if_pos hd] at hsw
          obtain ⟨hfm, hp1, hp2, hp3⟩ := ih out hsw
          refine ⟨?_, hp1, hp2, ?_⟩
          · rw [List.filterMap_cons_none, hfm]
            simp only [packetKeep, if_neg h1, hga, hgb, if_pos hd]
          · intro x hx
            obtain ⟨p, hp, hpe⟩ := hp3 x hx
            exact ⟨p, List.mem_cons_of_mem q hp, hpe⟩
        · rw [if_neg hd] at hsw
          obtain ⟨out', hout', rfl⟩ := Option.map_eq_some'.mp hsw
          obtain ⟨hfm, hp1, hp2, hp3⟩ := ih out' hout'
          refine ⟨?_, ?_, ?_, ?_⟩
          · rw [List.filterMap_cons_some, hfm]
            simp only [packetKeep, if_neg h1, hga, hgb, if_neg hd]
          · intro x hx
            rcases List.mem_cons.mp hx with rfl | hx'
            · have := lt_of_not_le h1
              simpa [advPkt] using this
            · exact hp1 x hx'
          · intro x hx
            rcases List.mem_cons.mp hx with rfl | hx'
            · exact ⟨a, b, by simpa [advPkt] using hga, by simpa [advPkt] using hgb,
                le_of_not_lt hd⟩
            · exact hp2 x hx'
          · intro x hx
            rcases List.mem_cons.mp hx with rfl | hx'
            · exact ⟨q, List.mem_cons_self q rest, rfl⟩
            · obtain ⟨p, hp, hpe⟩ := hp3 x hx'
              exact ⟨p, List.mem_cons_of_mem q hp, hpe⟩

/-- Witness for `c5_sweep_postcondition`: three particles, a packet that is
kept (advanced), a packet whose edge got longer than the threshold (removed),
and a packet that arrives (removed); the survivor list equals the
compacted `filterMap` image. -/
theorem c5_sweep_postcondition_witness :
    [(⟨0, 1, 3/5, 1/10⟩ : Packet)] =
      List.filterMap
        (packetKeep id [⟨0, 0, 0, 0, 1⟩, ⟨3, 4, 0, 0, 1⟩, ⟨300, 400, 0, 0, 1⟩] 180)
        [⟨0, 1, 1/2, 1/10⟩, ⟨0, 2, 1/2, 1/10⟩, ⟨0, 1, 99/100, 2/100⟩] :=
  (c5_sweep_postcondition id [⟨0, 0, 0, 0, 1⟩, ⟨3, 4, 0, 0, 1⟩, ⟨300, 400, 0, 0, 1⟩] 180
    [⟨0, 1, 1/2, 1/10⟩, ⟨0, 2, 1/2, 1/10⟩, ⟨0, 1, 99/100, 2/100⟩]
    [⟨0, 1, 3/5, 1/10⟩]
    (by norm_num [sweepO, advPkt, distSq])).1

/-- Index of the random source particle picked by the spawner:
`Math.floor(Math.random() * particleCount)`. -/
def spawnIndex (r1 : ℚ) (n : ℕ) : ℕ :=
  (Int.floor (r1 * n)).toNat

/-- The stochastic packet spawner, translated from the
`if (Math.random() < 0.05) { ... }` block of `animate`: with the spawn roll
`r0` below 0.05, pick source index from `r1`, scan for the nearest neighbor
within the connection threshold, and if one exists append a packet with
progress 0 and speed `0.02 + r2 * 0.03`.  Reading a nonexistent source
particle is the error result `none`. -/
def spawnStep (s : ℚ → ℚ) (parts : List Particle) (T r0 r1 r2 : ℚ)
    (packets : List Packet) : Option (List Packet) :=
  if r0 < 1/20 then
    match parts.get? (spawnIndex r1 parts.length) with
    | none => none
    | some pi =>
        match nnScan s parts (spawnIndex r1 parts.length) pi T with
        | some j =>
            some (packets ++ [⟨spawnIndex r1 parts.length, j, 0, 1/50 + r2 * (3/100)⟩])
        | none => some packets
  else some packets

/-- C6: a successful spawn pass leaves the packet list unchanged or appends
exactly one packet with progress 0 and speed in `[0.02, 0.05)` (for a speed
roll in `[0,1)`); and since such a speed is positive, each per-tick
advancement (`advPkt`, the increment the sweep applies to every live packet
until its removal) strictly increases progress. -/
theorem c6_spawn_and_monotone_progress (s : ℚ → ℚ) (parts : List Particle)
    (T r0 r1 r2 : ℚ) (packets out : List Packet)
    (hr2a : 0 ≤ r2) (hr2b : r2 < 1)
    (hsp : spawnStep s parts T r0 r1 r2 packets = some out) :
    (out = packets ∨ ∃ pkt, out = packets ++ [pkt] ∧ pkt.progress = 0 ∧
      1/50 ≤ pkt.speed ∧ pkt.speed < 1/20) ∧
    (∀ q : Packet, 0 < q.speed → q.progress < (advPkt q).progress) := by
  constructor
  · rw [spawnStep] at hsp
    by_cases h0 : r0 < 1/20
    · rw [if_pos h0] at hsp
      rcases hg : parts.get? (spawnIndex r1 parts.length) with _ | pi
      · rw [hg] at hsp
        exact absurd hsp (by simp)
      simp only [hg] at hsp
      rcases hnn : nnScan s parts (spawnIndex r1 parts.length) pi T with _ | j
      · simp only [hnn] at hsp
        exact Or.inl (Option.some.inj hsp).symm
      · simp only [hnn] at hsp
        refine Or.inr ⟨⟨spawnIndex r1 parts.length, j, 0, 1/50 + r2 * (3/100)⟩,
          (Option.some.inj hsp).symm, rfl, by norm_num [hr2a], by norm_num; linarith⟩
    · rw [if_neg h0] at hsp
      exact Or.inl (Option.some.inj hsp).symm
  · intro q hq
    simp only [advPkt]
    linarith

/-- Witness for `c6_spawn_and_monotone_progress`: two particles 5 apart with
threshold 180; rolls `r0 = 0`, `r1 = 0`, `r2 = 1/2` spawn the packet
`(0, 1, progress 0, speed 7/200)`, whose progress strictly increases under
one advancement. -/
theorem c6_spawn_and_monotone_progress_witness :
    ((⟨0, 1, 0, 7/200⟩ : Packet).progress < (advPkt ⟨0, 1, 0, 7/200⟩).progress) ∧
    spawnStep id [⟨0, 0, 0, 0, 1⟩, ⟨3, 4, 0, 0, 1⟩] 180 0 0 (1/2) [] =
      some [⟨0, 1, 0, 7/200⟩] := by
  have hsp : spawnStep id [⟨0, 0, 0, 0, 1⟩, ⟨3, 4, 0, 0, 1⟩] 180 0 0 (1/2) [] =
      some [⟨0, 1, 0, 7/200⟩] := by
    norm_num [spawnStep, spawnIndex, nnScan, nnGo, distSq]
  exact ⟨(c6_spawn_and_monotone_progress id [⟨0, 0, 0, 0, 1⟩, ⟨3, 4, 0, 0, 1⟩] 180 0 0 (1/2)
    [] [⟨0, 1, 0, 7/200⟩] (by norm_num) (by norm_num) hsp).2 ⟨0, 1, 0, 7/200⟩ (by norm_num),
    hsp⟩

/-- All packet endpoint indices are valid, distinct indices into a particle
collection of size `n`. -/
def WellIndexed (n : ℕ) (packets : List Packet) : Prop :=
  ∀ q ∈ packets, q.p1 < n ∧ q.p2 < n ∧ q.p1 ≠ q.p2

/-- The mutable state owned by the animation loop: the particle field and the
in-flight packets. -/
structure SimState where
  particles : List Particle
  packets : List Packet
deriving DecidableEq, Repr

/-- One full tick of `animate` (state part): spawn packets from the current
positions, advance every particle, then advance/prune every packet against
the updated positions.  `none` models a tick that would throw on an
out-of-range particle lookup. -/
def tick (s : ℚ → ℚ) (mx my w h mD coef T r0 r1 r2 : ℚ) (st : SimState) :
    Option SimState :=
  match spawnStep s st.particles T r0 r1 r2 st.packets with
  | none => none
  | some pk1 =>
      match sweepO s (advanceAll s mx my w h mD coef st.particles) T pk1 with
      | none => none
      | some pk2 => some ⟨advanceAll s mx my w h mD coef st.particles, pk2⟩

lemma spawnIndex_lt (r1 : ℚ) (n : ℕ) (h0 : 0 ≤ r1) (h1 : r1 < 1) (hn : 0 < n) :
    spawnIndex r1 n < n := by
  unfold spawnIndex
  have hnq : (0 : ℚ) < n := by exact_mod_cast hn
  have hlt : r1 * n < n := by nlinarith
  have hfl : Int.floor (r1 * (n : ℚ)) < (n : ℤ) := by
    rw [Int.floor_lt]
    exact_mod_cast hlt
  omega

lemma nnScan_some_bounds (s : ℚ → ℚ) (parts : List Particle) (i : ℕ)
    (pi : Particle) (T : ℚ) (j : ℕ)
    (hnn : nnScan s parts i pi T = some j) : j < parts.length ∧ j ≠ i := by
  rcases nnGo_spec s pi i parts 0 none T with ⟨he, _⟩ | ⟨k, hk, hki, he, _, _, _⟩
  · rw [nnScan, he] at hnn
    exact absurd hnn (by simp)
  · rw [nnScan, he] at hnn
    have := Option.some.inj hnn
    omega

lemma sweepO_total (s : ℚ → ℚ) (parts : List Particle) (T : ℚ)
    (packets : List Packet)
    (hidx : ∀ q ∈ packets, q.p1 < parts.length ∧ q.p2 < parts.length) :
    ∃ out, sweepO s parts T packets = some out ∧
      ∀ x ∈ out, ∃ q ∈ packets, x = advPkt q := by
  induction packets with
  | nil => exact ⟨[], rfl, by simp⟩
  | cons q rest ih =>
      obtain ⟨out', hout', hmem'⟩ := ih (fun p hp => hidx p (List.mem_cons_of_mem q hp))
      have hq := hidx q (List.mem_cons_self q rest)
      have hga : parts.get? q.p1 = some (parts.get ⟨q.p1, hq.1⟩) := List.get?_eq_get hq.1
      have hgb : parts.get? q.p2 = some (parts.get ⟨q.p2, hq.2⟩) := List.get?_eq_get hq.2
      rw [sweepO]
      by_cases h1 : (1 : ℚ) ≤ (advPkt q).progress
      · rw [if_pos h1]
        exact ⟨out', hout', fun x hx =>
          (hmem' x hx).imp (fun p hp => ⟨List.mem_cons_of_mem q hp.1, hp.2⟩)⟩
      · rw [if_neg h1]
        simp only [hga, hgb]
        by_cases hd : T < s (distSq (parts.get ⟨q.p1, hq.1⟩) (parts.get ⟨q.p2, hq.2⟩))
        · rw [if_pos hd]
          exact ⟨out', hout', fun x hx =>
            (hmem' x hx).imp (fun p hp => ⟨List.mem_cons_of_mem q hp.1, hp.2⟩)⟩
        · rw [if_neg hd]
          refine ⟨advPkt q :: out', by rw [hout']; rfl, ?_⟩
          intro x hx
          rcases List.mem_cons.mp hx with rfl | hx'
          · exact ⟨q, List.mem_cons_self q rest, rfl⟩
          · exact (hmem' x hx').imp (fun p hp => ⟨List.mem_cons_of_mem q hp.1, hp.2⟩)

/-- C10: packet endpoint indices are always in bounds.  Starting from a
well-indexed packet collection over a nonempty particle field, a full tick
never hits the error branch of the `Option` indexing (spawn lookup and sweep
lookups all succeed), preserves the particle count, and yields a
well-indexed packet collection again — so by induction every packet ever in
the collection references two valid, distinct particle indices. -/
theorem c10_packet_indices_in_bounds (s : ℚ → ℚ) (mx my w h mD coef T r0 r1 r2 : ℚ)
    (st : SimState) (hwi : WellIndexed st.particles.length st.packets)
    (hr1a : 0 ≤ r1) (hr1b : r1 < 1) (hne : 0 < st.particles.length) :
    ∃ st', tick s mx my w h mD coef T r0 r1 r2 st = some st' ∧
      st'.particles.length = st.particles.length ∧
      WellIndexed st'.particles.length st'.packets := by
  have hidx := spawnIndex_lt r1 st.particles.length hr1a hr1b hne
  obtain ⟨pk1, hpk1, hwi1⟩ : ∃ pk1,
      spawnStep s st.particles T r0 r1 r2 st.packets = some pk1 ∧
      WellIndexed st.particles.length pk1 := by
    rw [spawnStep]
    by_cases h0 : r0 < 1/20
    · rw [if_pos h0]
      have hg : st.particles.get? (spawnIndex r1 st.particles.length) =
          some (st.particles.get ⟨spawnIndex r1 st.particles.length, hidx⟩) :=
        List.get?_eq_get hidx
      simp only [hg]
      rcases hnn : nnScan s st.particles (spawnIndex r1 st.particles.length)
          (st.particles.get ⟨spawnIndex r1 st.particles.length, hidx⟩) T with _ | j
      · exact ⟨st.packets, rfl, hwi⟩
      · have hj := nnScan_some_bounds s st.particles _ _ T j hnn
        refine ⟨_, rfl, ?_⟩
        intro q hq
        rcases List.mem_append.mp hq with hq' | hq'
        · exact hwi q hq'
        · have : q = ⟨spawnIndex r1 st.particles.length, j, 0, 1/50 + r2 * (3/100)⟩ := by
            simpa using hq'
          subst this
          exact ⟨hidx, hj.1, fun he => hj.2 he.symm⟩
    · rw [if_neg h0]
      exact ⟨st.packets, rfl, hwi⟩
  have hlen : (advanceAll s mx my w h mD coef st.particles).length =
      st.particles.length := List.length_map _ _
  obtain ⟨pk2, hpk2, hmem⟩ := sweepO_total s (advanceAll s mx my w h mD coef st.particles)
    T pk1 (by
      intro q hq
      have := hwi1 q hq
      rw [hlen]
      exact ⟨this.1, this.2.1⟩)
  refine ⟨⟨advanceAll s mx my w h mD coef st.particles, pk2⟩, ?_, hlen, ?_⟩
  · rw [tick]
    simp only [hpk1, hpk2]
  · intro q hq
    obtain ⟨p, hp, rfl⟩ := hmem q hq
    have := hwi1 p hp
    simp only [advPkt]
    simp only [hlen]
    exact this

/-- Witness for `c10_packet_indices_in_bounds`: two particles and one live
packet; the tick completes without an indexing error and the surviving packet
still references two valid, distinct indices. -/
theorem c10_packet_indices_in_bounds_witness :
    (⟨0, 1, 3/5, 1/10⟩ : Packet).p1 < 2 ∧ (⟨0, 1, 3/5, 1/10⟩ : Packet).p2 < 2 ∧
      (⟨0, 1, 3/5, 1/10⟩ : Packet).p1 ≠ (⟨0, 1, 3/5, 1/10⟩ : Packet).p2 := by
  obtain ⟨st', hst, hlen, hwi⟩ :=
    c10_packet_indices_in_bounds id (-1000) (-1000) 100 100 250 (-3/100) 180 (1/2) (1/2)
      (1/2) ⟨[⟨0, 0, 0, 0, 1⟩, ⟨3, 4, 0, 0, 1⟩], [⟨0, 1, 1/2, 1/10⟩]⟩
      (by
        intro q hq
        simp only [List.mem_singleton] at hq
        subst hq
        exact ⟨by norm_num, by norm_num, by norm_num⟩)
      (by norm_num) (by norm_num) (by norm_num)
  have hev : tick id (-1000) (-1000) 100 100 250 (-3/100) 180 (1/2) (1/2) (1/2)
      ⟨[⟨0, 0, 0, 0, 1⟩, ⟨3, 4, 0, 0, 1⟩], [⟨0, 1, 1/2, 1/10⟩]⟩ =
      some ⟨[⟨0, 0, 0, 0, 1⟩, ⟨3, 4, 0, 0, 1⟩], [⟨0, 1, 3/5, 1/10⟩]⟩ := by
    norm_num [tick, spawnStep, sweepO, advanceAll, advanceParticle, advPkt, distSq]
  rw [hev] at hst
  obtain rfl : st' = ⟨[⟨0, 0, 0, 0, 1⟩, ⟨3, 4, 0, 0, 1⟩], [⟨0, 1, 3/5, 1/10⟩]⟩ :=
    (Option.some.inj hst).symm
  have := hwi ⟨0, 1, 3/5, 1/10⟩ (by simp)
  simpa using this

/-- Particle initialisation, translated from the mount-time loop
`for (let i = 0; i < particleCount; i++) particles.push({ x: Math.random()*width,
y: Math.random()*height, vx: (Math.random()-0.5)*factor, vy: (Math.random()-0.5)*factor,
size: Math.random()*2+1 })`, with `factor = 0.3` in the 80-particle variant and
`factor = 0.5` in the 60-particle variant.  The random stream `rnd` supplies the
five consecutive `Math.random()` draws of iteration `i`. -/
def initParticles (rnd : ℕ → ℚ) (count : ℕ) (w h factor : ℚ) : List Particle :=
  (List.range count).map (fun i =>
    ⟨rnd (5*i) * w, rnd (5*i + 1) * h, (rnd (5*i + 2) - 1/2) * factor,
     (rnd (5*i + 3) - 1/2) * factor, rnd (5*i + 4) * 2 + 1⟩)

/-- C7 as stated in the claim, velocity part: velocities are "uniformly random
over the symmetric range [-0.3, 0.3]" in the 0.3-factor variant, so every
value of that range should be attainable by some admissible random draw. -/
def c7ClaimStatement : Prop :=
  ∀ v : ℚ, -(3/10) ≤ v → v ≤ 3/10 →
    ∃ rnd : ℕ → ℚ, (∀ n, 0 ≤ rnd n ∧ rnd n < 1) ∧
      ∃ p ∈ initParticles rnd 1 100 100 (3/10), p.vx = v

/-- Counterexample to C7 as stated: the code computes
`(Math.random() - 0.5) * 0.3`, whose range is `[-0.15, 0.15)`, not
`[-0.3, 0.3]`; the claimed-attainable velocity `1/4` is attained by no
admissible draw. -/
theorem c7_velocity_range_counterexample : ¬ c7ClaimStatement := by
  intro h
  obtain ⟨rnd, hrnd, p, hp, hvx⟩ := h (1/4) (by norm_num) (by norm_num)
  simp only [initParticles, show List.range 1 = [0] from rfl, List.map_cons, List.map_nil,
    List.mem_singleton] at hp
  subst hp
  have h2 := hrnd (5*0 + 2)
  simp only at hvx
  have : (rnd (5*0 + 2) - 1/2) * (3/10) = 1/4 := hvx
  obtain ⟨_, hlt⟩ := h2
  linarith

/-- C7 (amended): `initialize` creates exactly `count` particles, each with
position in `[0, w) × [0, h)`, velocity components in
`[-factor/2, factor/2)` — that is `[-0.15, 0.15)` for the 80-particle
variant (`factor = 0.3`) and `[-0.25, 0.25)` for the 60-particle variant
(`factor = 0.5`) — and radius in `[1, 3)`, for any admissible random
stream. -/
theorem c7_initialize_ranges_amended (rnd : ℕ → ℚ) (count : ℕ) (w h factor : ℚ)
    (hrnd : ∀ n, 0 ≤ rnd n ∧ rnd n < 1) (hw : 0 < w) (hh : 0 < h) (hf : 0 < factor) :
    (initParticles rnd count w h factor).length = count ∧
    ∀ p ∈ initParticles rnd count w h factor,
      0 ≤ p.x ∧ p.x < w ∧ 0 ≤ p.y ∧ p.y < h ∧
      -(factor/2) ≤ p.vx ∧ p.vx < factor/2 ∧
      -(factor/2) ≤ p.vy ∧ p.vy < factor/2 ∧
      1 ≤ p.size ∧ p.size < 3 := by
  constructor
  · simp [initParticles]
  · intro p hp
    simp only [initParticles, List.mem_map, List.mem_range] at hp
    obtain ⟨i, _, rfl⟩ := hp
    obtain ⟨hxa, hxb⟩ := hrnd (5*i)
    obtain ⟨hya, hyb⟩ := hrnd (5*i + 1)
    obtain ⟨hvxa, hvxb⟩ := hrnd (5*i + 2)
    obtain ⟨hvya, hvyb⟩ := hrnd (5*i + 3)
    obtain ⟨hsa, hsb⟩ := hrnd (5*i + 4)
    refine ⟨mul_nonneg hxa (le_of_lt hw), ?_, mul_nonneg hya (le_of_lt hh), ?_,
      ?_, ?_, ?_, ?_, by simpa using by linarith, by simpa using by linarith⟩
    · simpa using mul_lt_of_lt_one_left hw hxb
    · simpa using mul_lt_of_lt_one_left hh hyb
    · simp only
      nlinarith
    · simp only
      nlinarith
    · simp only
      nlinarith
    · simp only
      nlinarith

/-- Witness for `c7_initialize_ranges_amended`: the constant stream `1/2`
creates exactly 2 particles for `count = 2`. -/
theorem c7_initialize_ranges_amended_witness :
    (initParticles (fun _ => 1/2) 2 100 100 (3/10)).length = 2 :=
  (c7_initialize_ranges_amended (fun _ => 1/2) 2 100 100 (3/10)
    (fun n => by norm_num) (by norm_num) (by norm_num) (by norm_num)).1

/-- Full component state as seen by the host: whether the pointer/resize
listeners are registered, whether a frame callback is pending with the host
scheduler, and the simulation state. -/
structure CompState where
  listenersOn : Bool
  framePending : Bool
  sim : SimState
deriving DecidableEq, Repr

/-- The component state when mount performs no setup. -/
def inertComp : CompState :=
  ⟨false, false, ⟨[], []⟩⟩

/-- Mount, translated from the `useEffect` body: if the canvas reference or
its 2D context is unavailable, return immediately (no particles, no
listeners, no frame request); otherwise create the particle field, register
the two listeners and enter the animation loop (a frame request is left
pending). -/
def mountComp (canvas ctx : Option Unit) (rnd : ℕ → ℚ) (count : ℕ)
    (w h factor : ℚ) : CompState :=
  match canvas with
  | none => inertComp
  | some _ =>
      match ctx with
      | none => inertComp
      | some _ => ⟨true, true, ⟨initParticles rnd count w h factor, []⟩⟩

/-- Teardown, translated from the `useEffect` cleanup: it removes the
`mousemove` and `resize` listeners — and nothing else.  In particular the
source never calls `cancelAnimationFrame`, so a pending frame request
survives teardown. -/
def cleanupComp (c : CompState) : CompState :=
  ⟨false, c.framePending, c.sim⟩

/-- Delivery of one external frame signal: if a frame request is pending,
the scheduler invokes `animate`, which runs one tick and re-requests the next
frame (`requestAnimationFrame(animate)` at the end of `animate`); a tick that
would throw stops the loop.  Without a pending request nothing happens. -/
def frameSignal (s : ℚ → ℚ) (mx my w h mD coef T r0 r1 r2 : ℚ) (c : CompState) :
    CompState :=
  if c.framePending then
    match tick s mx my w h mD coef T r0 r1 r2 c.sim with
    | some st' => ⟨c.listenersOn, true, st'⟩
    | none => ⟨c.listenersOn, false, c.sim⟩
  else c

/-- C9: if the canvas or its 2D context is unavailable at mount time, mount
is a silent no-op: no particles are created, no listeners are registered,
no frame callback is requested, and no error state exists. -/
theorem c9_mount_guard_silent_noop (canvas ctx : Option Unit) (rnd : ℕ → ℚ)
    (count : ℕ) (w h factor : ℚ) (hfail : canvas = none ∨ ctx = none) :
    mountComp canvas ctx rnd count w h factor = inertComp ∧
    (mountComp canvas ctx rnd count w h factor).sim.particles = [] ∧
    (mountComp canvas ctx rnd count w h factor).sim.packets = [] ∧
    (mountComp canvas ctx rnd count w h factor).listenersOn = false ∧
    (mountComp canvas ctx rnd count w h factor).framePending = false := by
  have he : mountComp canvas ctx rnd count w h factor = inertComp := by
    rcases hfail with rfl | rfl
    · rfl
    · cases canvas <;> rfl
  rw [he]
  exact ⟨rfl, rfl, rfl, rfl, rfl⟩

/-- Witness for `c9_mount_guard_silent_noop`: a present canvas whose 2D
context acquisition fails. -/
theorem c9_mount_guard_silent_noop_witness :
    mountComp (some ()) none (fun _ => 1/2) 80 100 100 (3/10) = inertComp :=
  (c9_mount_guard_silent_noop (some ()) none (fun _ => 1/2) 80 100 100 (3/10)
    (Or.inr rfl)).1

/-- C1 (code behavior at the failing input): teardown does NOT stop the
animation loop.  After `cleanupComp` the frame request is still pending, and
delivering one more external frame signal still runs a tick that mutates the
particle state (and re-requests the next frame).  The source's cleanup
removes the two event listeners but never cancels the recurring
`requestAnimationFrame` callback, contradicting the specified teardown
behavior. -/
theorem c1_teardown_leaves_tick_running :
    (cleanupComp ⟨true, true, ⟨[⟨1, 2, 3, 0, 1⟩], []⟩⟩).framePending = true ∧
    (frameSignal id (-1000) (-1000) 100 100 250 (-3/100) 180 (1/2) (1/2) (1/2)
        (cleanupComp ⟨true, true, ⟨[⟨1, 2, 3, 0, 1⟩], []⟩⟩)).sim
      ≠ (cleanupComp ⟨true, true, ⟨[⟨1, 2, 3, 0, 1⟩], []⟩⟩).sim ∧
    (frameSignal id (-1000) (-1000) 100 100 250 (-3/100) 180 (1/2) (1/2) (1/2)
        (cleanupComp ⟨true, true, ⟨[⟨1, 2, 3, 0, 1⟩], []⟩⟩)).framePending = true := by
  refine ⟨rfl, ?_, ?_⟩
  · have hev : frameSignal id (-1000) (-1000) 100 100 250 (-3/100) 180 (1/2) (1/2) (1/2)
        (cleanupComp ⟨true, true, ⟨[⟨1, 2, 3, 0, 1⟩], []⟩⟩) =
        ⟨false, true, ⟨[⟨4, 2, 3, 0, 1⟩], []⟩⟩ := by
      norm_num [frameSignal, cleanupComp, tick, spawnStep, sweepO, advanceAll,
        advanceParticle]
    rw [hev]
    simp only [cleanupComp, ne_eq, SimState.mk.injEq]
    norm_num
  · have hev : frameSignal id (-1000) (-1000) 100 100 250 (-3/100) 180 (1/2) (1/2) (1/2)
        (cleanupComp ⟨true, true, ⟨[⟨1, 2, 3, 0, 1⟩], []⟩⟩) =
        ⟨false, true, ⟨[⟨4, 2, 3, 0, 1⟩], []⟩⟩ := by
      norm_num [frameSignal, cleanupComp, tick, spawnStep, sweepO, advanceAll,
        advanceParticle]
    rw [hev]

/-- Stroke alpha of a connection line: `c * (1 - dist/threshold)`, with
`c = 0.15` in variant 1 and `c = 0.1` in variant 2. -/
def alphaOf (c T d : ℚ) : ℚ :=
  c * (1 - d / T)

/-- Inner connection loop, translated from
`for (let j = i + 1; j < particles.length; j++) { ... if (dist2 <
connectionDistance) stroke with alpha c*(1 - dist2/connectionDistance) }`:
collect the drawn edges `(i, j, alpha)` of particle `pi` (index `i`) against
the remaining particles, `j` counting from `m`. -/
def connInner (s : ℚ → ℚ) (T c : ℚ) (pi : Particle) (i : ℕ) :
    List Particle → ℕ → List (ℕ × ℕ × ℚ)
  | [], _ => []
  | pj :: rest, m =>
      if s (distSq pi pj) < T then
        (i, m, alphaOf c T (s (distSq pi pj))) :: connInner s T c pi i rest (m + 1)
      else connInner s T c pi i rest (m + 1)

/-- Outer traversal of the connection rendering: for each particle, draw its
edges against all later particles. -/
def connScan (s : ℚ → ℚ) (T c : ℚ) : List Particle → ℕ → List (ℕ × ℕ × ℚ)
  | [], _ => []
  | pi :: rest, i => connInner s T c pi i rest (i + 1) ++ connScan s T c rest (i + 1)

/-- All edges drawn in one frame over the given particle positions. -/
def edgesList (s : ℚ → ℚ) (T c : ℚ) (parts : List Particle) : List (ℕ × ℕ × ℚ) :=
  connScan s T c parts 0

lemma getD_drop (l : List Particle) (n m : ℕ) :
    (l.drop n).getD m pDefault = l.getD (n + m) pDefault := by
  induction l generalizing n with
  | nil => simp
  | cons a t ih =>
      cases n with
      | zero => simp
      | succ k =>
          simp only [List.drop_succ_cons]
          rw [ih k]
          have harith : (k + 1) + m = (k + m) + 1 := by omega
          rw [harith, List.getD_cons_succ]

lemma connInner_mem (s : ℚ → ℚ) (T c : ℚ) (pi : Particle) (i : ℕ)
    (l : List Particle) :
    ∀ (m i' j' : ℕ) (a : ℚ),
      (i', j', a) ∈ connInner s T c pi i l m ↔
        ∃ k, k < l.length ∧ i' = i ∧ j' = m + k ∧
          s (distSq pi (l.getD k pDefault)) < T ∧
          a = alphaOf c T (s (distSq pi (l.getD k pDefault))) := by
  induction l with
  | nil =>
      intro m i' j' a
      simp [connInner]
  | cons pj rest ih =>
      intro m i' j' a
      rw [connInner]
      by_cases hd : s (distSq pi pj) < T
      · rw [if_pos hd]
        constructor
        · intro hm
          rcases List.mem_cons.mp hm with he | hm'
          · have h1 : i' = i ∧ j' = m ∧ a = alphaOf c T (s (distSq pi pj)) := by
              simpa [Prod.ext_iff] using he
            exact ⟨0, by simp, h1.1, by omega, by simpa using hd, by simpa using h1.2.2⟩
          · obtain ⟨k, hk, h1, h2, h3, h4⟩ := (ih (m + 1) i' j' a).mp hm'
            exact ⟨k + 1, by simpa using hk, h1, by omega,
              by simpa using h3, by simpa using h4⟩
        · rintro ⟨k, hk, rfl, rfl, h3, rfl⟩
          cases k with
          | zero =>
              simp only [List.getD_cons_zero] at h3 ⊢
              exact List.mem_cons_self _ _
          | succ k' =>
              refine List.mem_cons_of_mem _ ((ih (m + 1) _ _ _).mpr
                ⟨k', by simpa using hk, rfl, by omega, by simpa using h3, by simp⟩)
      · rw [if_neg hd]
        constructor
        · intro hm
          obtain ⟨k, hk, h1, h2, h3, h4⟩ := (ih (m + 1) i' j' a).mp hm
          exact ⟨k + 1, by simpa using hk, h1, by omega,
            by simpa using h3, by simpa using h4⟩
        · rintro ⟨k, hk, rfl, rfl, h3, rfl⟩
          cases k with
          | zero =>
              simp only [List.getD_cons_zero] at h3
              exact absurd h3 hd
          | succ k' =>
              exact (ih (m + 1) _ _ _).mpr
                ⟨k', by simpa using hk, rfl, by omega, by simpa using h3, by simp⟩

lemma connScan_mem (s : ℚ → ℚ) (T c : ℚ) (l : List Particle) :
    ∀ (n : ℕ) (e : ℕ × ℕ × ℚ),
      e ∈ connScan s T c l n ↔
        ∃ k, k < l.length ∧
          e ∈ connInner s T c (l.getD k pDefault) (n + k) (l.drop (k + 1)) (n + k + 1) := by
  induction l with
  | nil =>
      intro n e
      simp [connScan]
  | cons pi rest ih =>
      intro n e
      rw [connScan]
      rw [List.mem_append]
      constructor
      · intro hm
        rcases hm with hm | hm
        · exact ⟨0, by simp, by simpa using hm⟩
        · obtain ⟨k, hk, hin⟩ := (ih (n + 1) e).mp hm
          refine ⟨k + 1, by simpa using hk, ?_⟩
          have h1 : n + (k + 1) = (n + 1) + k := by omega
          simpa [h1] using hin
      · rintro ⟨k, hk, hin⟩
        cases k with
        | zero =>
            exact Or.inl (by simpa using hin)
        | succ k' =>
            refine Or.inr ((ih (n + 1) e).mpr ⟨k', by simpa using hk, ?_⟩)
            have h1 : n + (k' + 1) = (n + 1) + k' := by omega
            simpa [h1] using hin

/-- C8: the connection rendering draws an edge for a pair `(i, j)` exactly
when `i < j` are valid indices whose computed distance is strictly below the
connection threshold, and its stroke alpha is `c * (1 - dist/T)`
(`c = 0.15`, `T = 180` in variant 1; `c = 0.1`, `T = 150` in variant 2),
which is strictly decreasing in the distance, attains the maximum opacity
`c` at distance 0, is strictly positive below the threshold, and reaches 0
at the threshold (so it tends to 0 as the distance approaches the
threshold). -/
theorem c8_edge_condition_and_alpha (s : ℚ → ℚ) (T c : ℚ) (parts : List Particle)
    (hT : 0 < T) (hc : 0 < c) :
    (∀ (i j : ℕ) (a : ℚ), (i, j, a) ∈ edgesList s T c parts ↔
      (i < j ∧ j < parts.length ∧
        s (distSq (parts.getD i pDefault) (parts.getD j pDefault)) < T ∧
        a = alphaOf c T (s (distSq (parts.getD i pDefault) (parts.getD j pDefault))))) ∧
    (∀ d1 d2 : ℚ, d1 < d2 → alphaOf c T d2 < alphaOf c T d1) ∧
    alphaOf c T 0 = c ∧
    alphaOf c T T = 0 ∧
    (∀ d : ℚ, d < T → 0 < alphaOf c T d) := by
  refine ⟨?_, ?_, ?_, ?_, ?_⟩
  · intro i j a
    rw [edgesList, connScan_mem]
    constructor
    · rintro ⟨k, hk, hin⟩
      obtain ⟨m, hm, h1, h2, h3, h4⟩ := (connInner_mem s T c (parts.getD k pDefault)
        (0 + k) (parts.drop (k + 1)) (0 + k + 1) i j a).mp hin
      rw [List.length_drop] at hm
      rw [getD_drop] at h3 h4
      have hik : i = k := by omega
      have hj : j = k + 1 + m := by omega
      subst hik
      refine ⟨by omega, by omega, ?_, ?_⟩
      · have : i + 1 + m = j := by omega
        rwa [this] at h3
      · have : i + 1 + m = j := by omega
        rwa [this] at h4
    · rintro ⟨hij, hjl, h3, h4⟩
      refine ⟨i, by omega, ?_⟩
      refine (connInner_mem s T c (parts.getD i pDefault) (0 + i)
        (parts.drop (i + 1)) (0 + i + 1) i j a).mpr
        ⟨j - i - 1, ?_, by omega, by omega, ?_, ?_⟩
      · rw [List.length_drop]
        omega
      · rw [getD_drop]
        have : i + 1 + (j - i - 1) = j := by omega
        rwa [this]
      · rw [getD_drop]
        have : i + 1 + (j - i - 1) = j := by omega
        rwa [this]
  · intro d1 d2 hd
    unfold alphaOf
    have h1 : d1 / T < d2 / T := by gcongr
    nlinarith
  · unfold alphaOf
    rw [zero_div]
    ring
  · unfold alphaOf
    rw [div_self (ne_of_gt hT)]
    ring
  · intro d hd
    unfold alphaOf
    have h1 : d / T < 1 := (div_lt_one hT).mpr hd
    nlinarith

/-- Witness for `c8_edge_condition_and_alpha`: two particles at code-computed
distance 25 (under `s = id`) with threshold 180 and maximum opacity 3/20;
the edge `(0, 1)` is drawn with alpha `alphaOf (3/20) 180 25`, and the alpha
at distance 0 is the maximum opacity. -/
theorem c8_edge_condition_and_alpha_witness :
    ((0, 1, alphaOf (3/20) 180 25) ∈
      edgesList id 180 (3/20) [⟨0, 0, 0, 0, 1⟩, ⟨3, 4, 0, 0, 1⟩]) ∧
    alphaOf (3/20) 180 0 = 3/20 := by
  have hmain := c8_edge_condition_and_alpha id 180 (3/20)
    [⟨0, 0, 0, 0, 1⟩, ⟨3, 4, 0, 0, 1⟩] (by norm_num) (by norm_num)
  refine ⟨(hmain.1 0 1 (alphaOf (3/20) 180 25)).mpr ⟨by norm_num, by norm_num, ?_, ?_⟩,
    hmain.2.2.1⟩
  · show id (distSq ([⟨0, 0, 0, 0, 1⟩, ⟨3, 4, 0, 0, 1⟩].getD 0 pDefault)
      ([⟨0, 0, 0, 0, 1⟩, ⟨3, 4, 0, 0, 1⟩].getD 1 pDefault)) < 180
    norm_num [distSq, List.getD_cons_zero, List.getD_cons_succ]
  · show alphaOf (3/20) 180 25 = alphaOf (3/20) 180 (id (distSq
      ([⟨0, 0, 0, 0, 1⟩, ⟨3, 4, 0, 0, 1⟩].getD 0 pDefault)
      ([⟨0, 0, 0, 0, 1⟩, ⟨3, 4, 0, 0, 1⟩].getD 1 pDefault)))
    norm_num [distSq, List.getD_cons_zero, List.getD_cons_succ]
